import Mathlib

/-!
# Verification of the `boiler` structured-log engine (`pkg/logging`)

Shallow embedding of the log-buffering / file-rotation / report engine:

* `logWriter.go` : `LogRecord`, `logFileWriter.Write`, `logFileWriter.flush`,
  `logFileWriter.findLatestFile`;
* the log reporter file (`logReporter`, `filterLogs`, `getLogs`);
* the logger file (`MaxStackSize`, `MaxFileSize`, `LogConfiguration`,
  `NewDCSlogger`).

The Go standard library `encoding/json` (used through `json.Marshal` /
`json.Unmarshal`) is modelled by an executable serializer and parser over an
inductive JSON value type.  Modelling notes:

* JSON numbers are modelled as integers (`Int`).  Go decodes numbers into
  `float64`; fractional and exponent forms are outside this embedding.
* Go maps (`map[string]any`, hence `LogRecord`) are unordered; the embedding
  represents an object as an association list that remembers the textual
  field order, and the parser preserves that order.  `json.Marshal` prints a
  map's keys sorted; since the model keeps the parsed order on both the
  encode and decode sides, equality of records in the model is
  a sound (finer) model of Go's field-for-field map equality.
* Go's encoder escapes `"`, `\`, the control characters (with the short
  forms `\n`, `\r`, `\t` and `\u00XX` otherwise); the HTML escapes
  (`<`, `>`, `&`, U+2028/U+2029) are not modelled — they change the byte
  representation only, never the decoded value.
-/

namespace Boiler

/-- Model of the JSON value universe produced by `json.Unmarshal` into
`any` (Go: `nil`, `bool`, number, `string`, `[]any`, `map[string]any`).
Numbers are restricted to integers (see the module comment). -/
inductive Json where
  | null : Json
  | bool (b : Bool) : Json
  | num (n : Int) : Json
  | str (s : String) : Json
  | arr (elems : List Json) : Json
  | obj (fields : List (String × Json)) : Json

/-- `type LogRecord map[string]any` (logWriter.go line 18), in the
association-list representation of a decoded JSON object. -/
def LogRecord := List (String × Json)

/-! ## Serializer: model of `json.Marshal` (compact output, no whitespace) -/

/-- Hexadecimal digit character (lower case, as Go's encoder emits). -/
def hexDigit (n : Nat) : Char :=
  if n < 10 then Char.ofNat (48 + n) else Char.ofNat (87 + n)

/-- Escape one character inside a JSON string, as Go's encoder does for
non-HTML characters: `\"`, `\\`, `\n`, `\r`, `\t`, and `\u00XX` for the
remaining control characters. -/
def escChar (c : Char) : List Char :=
  if c = '"' then ['\\', '"']
  else if c = '\\' then ['\\', '\\']
  else if c = '\n' then ['\\', 'n']
  else if c = '\r' then ['\\', 'r']
  else if c = '\t' then ['\\', 't']
  else if c.toNat < 32 then
    ['\\', 'u', '0', '0', hexDigit (c.toNat / 16), hexDigit (c.toNat % 16)]
  else [c]

/-- Escape every character of a string body. -/
def escList : List Char → List Char
  | [] => []
  | c :: s => escChar c ++ escList s

/-- Serialize a JSON string (including the surrounding quotes). -/
def serStr (s : String) : List Char :=
  '"' :: escList s.data ++ ['"']

/-- Decimal digits of a natural number, most significant first
(`fuel` bounds the digit count; `natChars` supplies enough). -/
def natCharsAux : Nat → Nat → List Char
  | 0, _ => []
  | fuel + 1, n =>
    if n < 10 then [Char.ofNat (48 + n)]
    else natCharsAux fuel (n / 10) ++ [Char.ofNat (48 + n % 10)]

/-- Decimal digits of a natural number, most significant first. -/
def natChars (n : Nat) : List Char := natCharsAux (n + 1) n

/-- Serialize an integer JSON number. -/
def serInt (n : Int) : List Char :=
  if n < 0 then '-' :: natChars n.natAbs else natChars n.natAbs

mutual

/-- Serializer for a JSON value: model of `json.Marshal` output. -/
def serVal : Json → List Char
  | .null => "null".data
  | .bool true => "true".data
  | .bool false => "false".data
  | .num n => serInt n
  | .str s => serStr s
  | .arr xs => '[' :: serElems xs
  | .obj fs => '{' :: serFields fs

/-- Serializer for the part of an array after `[`. -/
def serElems : List Json → List Char
  | [] => [']']
  | [v] => serVal v ++ [']']
  | v :: vs => serVal v ++ ',' :: serElems vs

/-- Serializer for the part of an object after `{`. -/
def serFields : List (String × Json) → List Char
  | [] => ['}']
  | [(k, v)] => serStr k ++ ':' :: serVal v ++ ['}']
  | (k, v) :: fs => serStr k ++ ':' :: serVal v ++ ',' :: serFields fs

end

/-! ## Parser: model of `json.Unmarshal` -/

/-- JSON insignificant whitespace (RFC 8259 / Go's scanner). -/
def isWs (c : Char) : Bool :=
  c = ' ' || c = '\t' || c = '\n' || c = '\r'

/-- Skip leading whitespace. -/
def skipWs : List Char → List Char
  | [] => []
  | c :: cs => if isWs c then skipWs cs else c :: cs

/-- Decimal digit test. -/
def isDig (c : Char) : Bool := 48 ≤ c.toNat && c.toNat ≤ 57

/-- Value of a hexadecimal digit character, if it is one. -/
def hexVal (c : Char) : Option Nat :=
  if 48 ≤ c.toNat ∧ c.toNat ≤ 57 then some (c.toNat - 48)
  else if 97 ≤ c.toNat ∧ c.toNat ≤ 102 then some (c.toNat - 87)
  else if 65 ≤ c.toNat ∧ c.toNat ≤ 70 then some (c.toNat - 55)
  else none

/-- Decode a single-character escape (after `\`), if legal. -/
def escDecode (e : Char) : Option Char :=
  if e = '"' then some '"'
  else if e = '\\' then some '\\'
  else if e = '/' then some '/'
  else if e = 'n' then some '\n'
  else if e = 'r' then some '\r'
  else if e = 't' then some '\t'
  else if e = 'b' then some (Char.ofNat 8)
  else if e = 'f' then some (Char.ofNat 12)
  else none

mutual

/-- Parse the body of a JSON string after the opening quote; returns the
decoded characters and the input after the closing quote.  Escape handling
as in Go's decoder (sans surrogate-pair recombination). -/
def parseStrBody : List Char → Option (List Char × List Char)
  | [] => none
  | c :: rest =>
    if c = '"' then some ([], rest)
    else if c = '\\' then parseEsc rest
    else (parseStrBody rest).map (fun p => (c :: p.1, p.2))

/-- Parse one escape sequence (input starts after the backslash). -/
def parseEsc : List Char → Option (List Char × List Char)
  | [] => none
  | e :: rest2 =>
    if e = 'u' then
      match rest2 with
      | h1 :: h2 :: h3 :: h4 :: rest3 =>
        match hexVal h1, hexVal h2, hexVal h3, hexVal h4 with
        | some v1, some v2, some v3, some v4 =>
          (parseStrBody rest3).map
            (fun p => (Char.ofNat (4096 * v1 + 256 * v2 + 16 * v3 + v4) :: p.1, p.2))
        | _, _, _, _ => none
      | _ => none
    else
      match escDecode e with
      | some d => (parseStrBody rest2).map (fun p => (d :: p.1, p.2))
      | none => none

end

/-- Longest digit prefix and the rest. -/
def spanDig : List Char → List Char × List Char
  | [] => ([], [])
  | c :: cs =>
    if isDig c then
      let (ds, r) := spanDig cs
      (c :: ds, r)
    else ([], c :: cs)

/-- Numeric value of a digit string (most significant first). -/
def digsVal (ds : List Char) : Nat :=
  ds.foldl (fun a c => 10 * a + (c.toNat - 48)) 0

/-- Parse a natural number (one or more decimal digits). -/
def parseNat (cs : List Char) : Option (Nat × List Char) :=
  let (ds, r) := spanDig cs
  if ds.isEmpty then none else some (digsVal ds, r)

mutual

/-- Parse one JSON value (integral numbers only, see module comment).
`fuel` bounds the recursion depth; `unmarshal` supplies enough fuel for
any input of the given length. -/
def parseVal : Nat → List Char → Option (Json × List Char)
  | 0, _ => none
  | fuel + 1, cs =>
    match skipWs cs with
    | [] => none
    | c :: rest =>
      if c = '{' then parseFields fuel (skipWs rest)
      else if c = '[' then parseElems fuel (skipWs rest)
      else if c = '"' then do
        let (s, r) ← parseStrBody rest
        some (.str ⟨s⟩, r)
      else if c = 't' then
        match rest with
        | 'r' :: 'u' :: 'e' :: r => some (.bool true, r)
        | _ => none
      else if c = 'f' then
        match rest with
        | 'a' :: 'l' :: 's' :: 'e' :: r => some (.bool false, r)
        | _ => none
      else if c = 'n' then
        match rest with
        | 'u' :: 'l' :: 'l' :: r => some (.null, r)
        | _ => none
      else if c = '-' then do
        let (n, r) ← parseNat rest
        some (.num (-(n : Int)), r)
      else if isDig c then do
        let (n, r) ← parseNat (c :: rest)
        some (.num (n : Int), r)
      else none

/-- Parse the remainder of a JSON array after `[` (whitespace skipped). -/
def parseElems : Nat → List Char → Option (Json × List Char)
  | 0, _ => none
  | fuel + 1, cs =>
    match cs with
    | [] => none
    | c :: rest =>
      if c = ']' then some (.arr [], rest)
      else do
        let (v, r) ← parseVal fuel (c :: rest)
        match skipWs r with
        | [] => none
        | c2 :: r2 =>
          if c2 = ',' then do
            let (tail, r3) ← parseElems fuel (skipWs r2)
            match tail with
            | .arr vs => some (.arr (v :: vs), r3)
            | _ => none
          else if c2 = ']' then some (.arr [v], r2)
          else none

/-- Parse the remainder of a JSON object after `{` (whitespace skipped). -/
def parseFields : Nat → List Char → Option (Json × List Char)
  | 0, _ => none
  | fuel + 1, cs =>
    match cs with
    | [] => none
    | c :: rest =>
      if c = '}' then some (.obj [], rest)
      else if c = '"' then do
        let (k, r) ← parseStrBody rest
        match skipWs r with
        | [] => none
        | c2 :: r2 =>
          if c2 = ':' then do
            let (v, r3) ← parseVal fuel (skipWs r2)
            match skipWs r3 with
            | [] => none
            | c3 :: r4 =>
              if c3 = ',' then do
                let (tail, r5) ← parseFields fuel (skipWs r4)
                match tail with
                | .obj fs => some (.obj ((⟨k⟩, v) :: fs), r5)
                | _ => none
              else if c3 = '}' then some (.obj [(⟨k⟩, v)], r4)
              else none
          else none
      else none

end

/-- Fuel that `unmarshal` hands to the parser: enough for any input of
this length (each unit of nesting consumes at least one input character,
and each fuel step beyond that consumes at least one character as well). -/
def fuelFor (cs : List Char) : Nat := 2 * cs.length + 4

/-- Model of `json.Unmarshal(content, &v)` for an arbitrary `any` target:
parse one value, then require only trailing whitespace. -/
def unmarshal (cs : List Char) : Option Json := do
  let (v, r) ← parseVal (fuelFor cs) cs
  if skipWs r = [] then some v else none

/-- Model of `json.Unmarshal(b, record)` with `record *LogRecord`
(a map target: the document must be a JSON object). -/
def unmarshalRecord (cs : List Char) : Option LogRecord :=
  match unmarshal cs with
  | some (.obj fs) => some fs
  | _ => none

/-- Conversion of a decoded element to a `LogRecord` (Go: decoding a JSON
array element into the `LogRecord` map type requires an object). -/
def toRecord : Json → Option LogRecord
  | .obj fs => some fs
  | _ => none

/-- Element-wise decode of a JSON array into `[]LogRecord`. -/
def recordsOf : List Json → Option (List LogRecord)
  | [] => some []
  | x :: xs =>
    match toRecord x, recordsOf xs with
    | some r, some rs => some (r :: rs)
    | _, _ => none

/-- Model of `json.Unmarshal(content, &prevLogs)` with
`prevLogs []LogRecord`: the document must be an array of objects. -/
def unmarshalList (cs : List Char) : Option (List LogRecord) :=
  match unmarshal cs with
  | some (.arr xs) => recordsOf xs
  | _ => none

/-- Model of `json.Marshal(record)` for one `LogRecord`. -/
def marshalRecord (r : LogRecord) : List Char := serVal (.obj r)

/-- Model of `json.Marshal(prevLogs)` for `[]LogRecord`. -/
def marshalList (l : List LogRecord) : List Char :=
  serVal (.arr (l.map .obj))

/-! ## Encode/decode round trip -/

theorem toNat_ofNat_lt {k : Nat} (h : k < 0xd800) : (Char.ofNat k).toNat = k := by
  rw [Char.ofNat, dif_pos (Or.inl h)]
  simp [Char.ofNatAux, Char.toNat, UInt32.toNat]

theorem ne_of_toNat_ne {c d : Char} (h : c.toNat ≠ d.toNat) : c ≠ d :=
  fun e => h (by rw [e])

theorem hexVal_hexDigit {n : Nat} (h : n < 16) : hexVal (hexDigit n) = some n := by
  unfold hexDigit hexVal
  by_cases h10 : n < 10
  · rw [if_pos h10]
    rw [toNat_ofNat_lt (by omega)]
    rw [if_pos (by omega)]
    congr 1
    omega
  · rw [if_neg h10]
    rw [toNat_ofNat_lt (by omega)]
    rw [if_neg (by omega), if_pos (by omega)]
    congr 1
    omega

/-- One decoded character per `escChar` chunk. -/
theorem parseStrBody_escChar (c : Char) (t : List Char) (s : List Char)
    (r : List Char) (h : parseStrBody t = some (s, r)) :
    parseStrBody (escChar c ++ t) = some (c :: s, r) := by
  by_cases hq : c = '"'
  · subst hq
    show parseStrBody ('\\' :: '"' :: t) = _
    simp [parseStrBody, parseEsc, escDecode, h]
  by_cases hb : c = '\\'
  · subst hb
    show parseStrBody ('\\' :: '\\' :: t) = _
    simp [parseStrBody, parseEsc, escDecode, h]
  by_cases hn : c = '\n'
  · subst hn
    show parseStrBody ('\\' :: 'n' :: t) = _
    simp [parseStrBody, parseEsc, escDecode, h]
  by_cases hr : c = '\r'
  · subst hr
    show parseStrBody ('\\' :: 'r' :: t) = _
    simp [parseStrBody, parseEsc, escDecode, h]
  by_cases ht : c = '\t'
  · subst ht
    show parseStrBody ('\\' :: 't' :: t) = _
    simp [parseStrBody, parseEsc, escDecode, h]
  by_cases hc : c.toNat < 32
  · rw [escChar, if_neg hq, if_neg hb, if_neg hn, if_neg hr, if_neg ht, if_pos hc]
    show parseStrBody ('\\' :: 'u' :: '0' :: '0' ::
      hexDigit (c.toNat / 16) :: hexDigit (c.toNat % 16) :: t) = _
    have e1 : parseStrBody ('\\' :: 'u' :: '0' :: '0' ::
        hexDigit (c.toNat / 16) :: hexDigit (c.toNat % 16) :: t) =
        parseEsc ('u' :: '0' :: '0' ::
          hexDigit (c.toNat / 16) :: hexDigit (c.toNat % 16) :: t) := by
      simp [parseStrBody]
    rw [e1, parseEsc]
    rw [if_pos rfl]
    rw [show hexVal '0' = some 0 from rfl]
    rw [hexVal_hexDigit (by omega), hexVal_hexDigit (by omega)]
    have harith : (16 * (c.toNat / 16) + c.toNat % 16) = c.toNat := by omega
    simp [h, harith]
  · rw [escChar, if_neg hq, if_neg hb, if_neg hn, if_neg hr, if_neg ht, if_neg hc]
    show parseStrBody (c :: t) = _
    rw [parseStrBody]
    rw [if_neg hq, if_neg hb, h]
    rfl

theorem parseStrBody_ser (s : List Char) (rest : List Char) :
    parseStrBody (escList s ++ ('"' :: rest)) = some (s, rest) := by
  induction s with
  | nil => rfl
  | cons c s ih =>
    rw [escList, List.append_assoc]
    exact parseStrBody_escChar c _ s rest ih

theorem string_mk_data (s : String) : String.mk s.data = s := by
  cases s
  rfl

/-- "the head of `cs`, if any, is not a decimal digit" — the delimiter
condition under which a serialized number is parsed back exactly. -/
def headNotDig (cs : List Char) : Bool :=
  match cs with
  | [] => true
  | c :: _ => !isDig c

theorem isDig_toNat {c : Char} (h : isDig c = true) :
    48 ≤ c.toNat ∧ c.toNat ≤ 57 := by
  simpa [isDig] using h

theorem isDig_char_ofNat {k : Nat} (h : k < 10) :
    isDig (Char.ofNat (48 + k)) = true := by
  simp [isDig, toNat_ofNat_lt (show 48 + k < 0xd800 by omega)]
  omega

theorem isWs_eq_false {c : Char}
    (h : c.toNat ≠ 32 ∧ c.toNat ≠ 9 ∧ c.toNat ≠ 10 ∧ c.toNat ≠ 13) :
    isWs c = false := by
  simp only [isWs, Bool.or_eq_false_iff, decide_eq_false_iff_not]
  exact ⟨⟨⟨ne_of_toNat_ne h.1, ne_of_toNat_ne h.2.1⟩,
    ne_of_toNat_ne h.2.2.1⟩, ne_of_toNat_ne h.2.2.2⟩

theorem skipWs_not_ws {c : Char} {cs : List Char} (h : isWs c = false) :
    skipWs (c :: cs) = c :: cs := by
  simp [skipWs, h]

theorem natCharsAux_all_dig :
    ∀ fuel n c, c ∈ natCharsAux fuel n → isDig c = true := by
  intro fuel
  induction fuel with
  | zero => intro n c h; simp [natCharsAux] at h
  | succ f ih =>
    intro n c h
    rw [natCharsAux] at h
    by_cases h10 : n < 10
    · rw [if_pos h10] at h
      simp at h
      subst h
      exact isDig_char_ofNat h10
    · rw [if_neg h10] at h
      rcases List.mem_append.1 h with h' | h'
      · exact ih _ _ h'
      · simp at h'
        subst h'
        exact isDig_char_ofNat (Nat.mod_lt _ (by omega))

theorem natCharsAux_ne_nil (fuel n : Nat) : natCharsAux (fuel + 1) n ≠ [] := by
  rw [natCharsAux]
  by_cases h10 : n < 10
  · rw [if_pos h10]; simp
  · rw [if_neg h10]; simp

theorem spanDig_append (ds rest : List Char) (hds : ∀ c ∈ ds, isDig c = true)
    (hrest : headNotDig rest = true) : spanDig (ds ++ rest) = (ds, rest) := by
  induction ds with
  | nil =>
    simp only [List.nil_append]
    cases rest with
    | nil => rfl
    | cons c r =>
      simp only [headNotDig, Bool.not_eq_true'] at hrest
      simp [spanDig, hrest]
  | cons c ds ih =>
    have hc : isDig c = true := hds c (by simp)
    simp only [List.cons_append, spanDig, hc, if_true, List.append_eq]
    rw [ih (fun d hd => hds d (by simp [hd]))]

theorem digsVal_append_last (xs : List Char) (d : Char) :
    digsVal (xs ++ [d]) = 10 * digsVal xs + (d.toNat - 48) := by
  simp [digsVal, List.foldl_append]

theorem digsVal_natCharsAux :
    ∀ fuel n, n < fuel → digsVal (natCharsAux fuel n) = n := by
  intro fuel
  induction fuel with
  | zero => omega
  | succ f ih =>
    intro n hn
    rw [natCharsAux]
    by_cases h10 : n < 10
    · rw [if_pos h10]
      simp [digsVal, toNat_ofNat_lt (show 48 + n < 0xd800 by omega)]
    · rw [if_neg h10]
      rw [digsVal_append_last]
      have hdiv : n / 10 < f := by
        have h1 : n / 10 < n := Nat.div_lt_self (by omega) (by omega)
        omega
      rw [ih _ hdiv]
      rw [toNat_ofNat_lt (show 48 + n % 10 < 0xd800 from by
        have := Nat.mod_lt n (show 0 < 10 by omega); omega)]
      omega

theorem parseNat_natChars (n : Nat) (rest : List Char)
    (hrest : headNotDig rest = true) :
    parseNat (natChars n ++ rest) = some (n, rest) := by
  unfold parseNat natChars
  rw [spanDig_append _ _ (fun c hc => natCharsAux_all_dig _ _ c hc) hrest]
  simp only []
  rw [if_neg (by simpa using natCharsAux_ne_nil n n)]
  rw [digsVal_natCharsAux _ _ (by omega)]

/-! ### Fuel accounting for the parser -/

mutual

/-- Fuel sufficient to parse back the serialization of a value. -/
def fuelVal : Json → Nat
  | .arr xs => 1 + fuelElems xs
  | .obj fs => 1 + fuelFields fs
  | _ => 1

/-- Fuel sufficient for the element list of an array. -/
def fuelElems : List Json → Nat
  | [] => 1
  | v :: vs => 1 + fuelVal v + fuelElems vs

/-- Fuel sufficient for the field list of an object. -/
def fuelFields : List (String × Json) → Nat
  | [] => 1
  | (_, v) :: fs => 1 + fuelVal v + fuelFields fs

end

theorem fuelVal_pos (j : Json) : 1 ≤ fuelVal j := by
  cases j <;> simp [fuelVal]

theorem fuelElems_pos (vs : List Json) : 1 ≤ fuelElems vs := by
  cases vs
  · simp [fuelElems]
  · simp [fuelElems]
    omega

theorem fuelFields_pos (fs : List (String × Json)) : 1 ≤ fuelFields fs := by
  cases fs with
  | nil => simp [fuelFields]
  | cons f fs => obtain ⟨k, v⟩ := f; simp [fuelFields]; omega

/-! ### Heads of serialized values -/

theorem natChars_cons (n : Nat) :
    ∃ c b, natChars n = c :: b ∧ isDig c = true := by
  unfold natChars
  cases h : natCharsAux (n + 1) n with
  | nil => exact absurd h (natCharsAux_ne_nil n n)
  | cons c b =>
    exact ⟨c, b, rfl, natCharsAux_all_dig _ _ c (by rw [h]; simp)⟩

theorem ne_char_of_dig {c : Char} (hc : isDig c = true) {d : Char}
    (hd : d.toNat < 48 ∨ 57 < d.toNat) : c ≠ d := by
  obtain ⟨h1, h2⟩ := isDig_toNat hc
  exact ne_of_toNat_ne (by omega)

theorem isWs_of_dig {c : Char} (hc : isDig c = true) : isWs c = false := by
  obtain ⟨h1, h2⟩ := isDig_toNat hc
  exact isWs_eq_false (by omega)

/-- Every serialized value starts with a non-whitespace character that is
neither `]` nor `}`. -/
theorem serVal_head (j : Json) :
    ∃ c b, serVal j = c :: b ∧ isWs c = false ∧ c ≠ ']' ∧ c ≠ '}' := by
  cases j with
  | null => exact ⟨'n', _, rfl, rfl, by decide, by decide⟩
  | bool b =>
    cases b
    · exact ⟨'f', _, rfl, rfl, by decide, by decide⟩
    · exact ⟨'t', _, rfl, rfl, by decide, by decide⟩
  | num k =>
    show ∃ c b, serInt k = c :: b ∧ _
    unfold serInt
    by_cases hneg : k < 0
    · rw [if_pos hneg]
      exact ⟨'-', _, rfl, by decide, by decide, by decide⟩
    · rw [if_neg hneg]
      obtain ⟨c, b, hcb, hdig⟩ := natChars_cons k.natAbs
      exact ⟨c, b, hcb, isWs_of_dig hdig,
        ne_char_of_dig hdig (by right; decide),
        ne_char_of_dig hdig (by right; decide)⟩
  | str s => exact ⟨'"', _, rfl, rfl, by decide, by decide⟩
  | arr xs => exact ⟨'[', _, rfl, rfl, by decide, by decide⟩
  | obj fs => exact ⟨'{', _, rfl, rfl, by decide, by decide⟩

theorem serElems_head (vs : List Json) :
    ∃ c b, serElems vs = c :: b ∧ isWs c = false := by
  cases vs with
  | nil => exact ⟨']', _, rfl, by decide⟩
  | cons v vs =>
    obtain ⟨c, b, hcb, hws, _, _⟩ := serVal_head v
    cases vs with
    | nil => exact ⟨c, b ++ [']'],
        by show serVal v ++ [']'] = _; rw [hcb]; rfl, hws⟩
    | cons v2 vs2 =>
      exact ⟨c, b ++ ',' :: serElems (v2 :: vs2),
        by show serVal v ++ ',' :: serElems (v2 :: vs2) = _; rw [hcb]; rfl, hws⟩

theorem serFields_head (fs : List (String × Json)) :
    ∃ c b, serFields fs = c :: b ∧ isWs c = false := by
  cases fs with
  | nil => exact ⟨'}', _, rfl, by decide⟩
  | cons f fs =>
    obtain ⟨k, v⟩ := f
    cases fs with
    | nil => exact ⟨'"', escList k.data ++ ['"'] ++ ':' :: serVal v ++ ['}'],
        by show serStr k ++ ':' :: serVal v ++ ['}'] = _; simp [serStr], by decide⟩
    | cons f2 fs2 =>
      exact ⟨'"', escList k.data ++ ['"'] ++ ':' :: serVal v ++ ',' :: serFields (f2 :: fs2),
        by show serStr k ++ ':' :: serVal v ++ ',' :: serFields (f2 :: fs2) = _;
           simp [serStr], by decide⟩

theorem skipWs_head {X : List Char} (h : ∃ c b, X = c :: b ∧ isWs c = false)
    (r : List Char) : skipWs (X ++ r) = X ++ r := by
  obtain ⟨c, b, rfl, hws⟩ := h
  rw [List.cons_append]
  exact skipWs_not_ws hws

theorem serVal_head_ws (j : Json) :
    ∃ c b, serVal j = c :: b ∧ isWs c = false := by
  obtain ⟨c, b, h, hw, _, _⟩ := serVal_head j
  exact ⟨c, b, h, hw⟩

/-- Reduction of `parseVal` at a digit head: the number branch fires. -/
theorem parseVal_digit_head (m : Nat) (c : Char) (X : List Char)
    (hc : isDig c = true) :
    parseVal (m + 1) (c :: X) =
      (parseNat (c :: X)).bind (fun p => some (.num (p.1 : Int), p.2)) := by
  simp only [parseVal, skipWs_not_ws (isWs_of_dig hc)]
  rw [if_neg (ne_char_of_dig hc (by right; decide))]
  rw [if_neg (ne_char_of_dig hc (by right; decide))]
  rw [if_neg (ne_char_of_dig hc (by left; decide))]
  rw [if_neg (ne_char_of_dig hc (by right; decide))]
  rw [if_neg (ne_char_of_dig hc (by right; decide))]
  rw [if_neg (ne_char_of_dig hc (by right; decide))]
  rw [if_neg (ne_char_of_dig hc (by left; decide))]
  rw [if_pos hc]
  rfl

/-- Round trip of the serializer through the parser, by strong induction on
the fuel, simultaneously for values, array tails and object tails. -/
theorem parse_ser (n : Nat) :
    (∀ j rest, fuelVal j ≤ n → headNotDig rest = true →
        parseVal n (serVal j ++ rest) = some (j, rest)) ∧
    (∀ vs rest, fuelElems vs ≤ n →
        parseElems n (serElems vs ++ rest) = some (.arr vs, rest)) ∧
    (∀ fs rest, fuelFields fs ≤ n →
        parseFields n (serFields fs ++ rest) = some (.obj fs, rest)) := by
  induction n using Nat.strong_induction_on with
  | _ n ih =>
    match n with
    | 0 =>
      exact ⟨fun j rest hf _ => absurd hf (by have := fuelVal_pos j; omega),
             fun vs rest hf => absurd hf (by have := fuelElems_pos vs; omega),
             fun fs rest hf => absurd hf (by have := fuelFields_pos fs; omega)⟩
    | m + 1 =>
      have ihm := ih m (by omega)
      refine ⟨?_, ?_, ?_⟩
      · intro j rest hf hrest
        cases j with
        | null => rfl
        | bool b => cases b <;> rfl
        | num k =>
          show parseVal (m + 1) (serInt k ++ rest) = _
          by_cases hneg : k < 0
          · rw [serInt, if_pos hneg, List.cons_append]
            show (parseNat (natChars k.natAbs ++ rest)).bind
                (fun p => some (Json.num (-(p.1 : Int)), p.2)) = _
            rw [parseNat_natChars _ _ hrest]
            show some (Json.num (-(k.natAbs : Int)), rest) = _
            have he : -(k.natAbs : Int) = k := by omega
            rw [he]
          · rw [serInt, if_neg hneg]
            obtain ⟨c, b, hcb, hdig⟩ := natChars_cons k.natAbs
            rw [hcb, List.cons_append, parseVal_digit_head m c _ hdig,
                ← List.cons_append, ← hcb, parseNat_natChars _ _ hrest]
            show some (Json.num (k.natAbs : Int), rest) = _
            have he : (k.natAbs : Int) = k := by omega
            rw [he]
        | str s =>
          show parseVal (m + 1) (('"' :: (escList s.data ++ ['"'])) ++ rest) = _
          rw [List.cons_append, List.append_assoc]
          show (parseStrBody (escList s.data ++ ('"' :: rest))).bind
              (fun p => some (Json.str ⟨p.1⟩, p.2)) = _
          rw [parseStrBody_ser]
          show some (Json.str ⟨s.data⟩, rest) = _
          rw [string_mk_data]
        | arr xs =>
          show parseVal (m + 1) (('[' :: serElems xs) ++ rest) = _
          rw [List.cons_append]
          show parseElems m (skipWs (serElems xs ++ rest)) = _
          rw [skipWs_head (serElems_head xs)]
          exact ihm.2.1 xs rest (by rw [fuelVal] at hf; omega)
        | obj fs =>
          show parseVal (m + 1) (('{' :: serFields fs) ++ rest) = _
          rw [List.cons_append]
          show parseFields m (skipWs (serFields fs ++ rest)) = _
          rw [skipWs_head (serFields_head fs)]
          exact ihm.2.2 fs rest (by rw [fuelVal] at hf; omega)
      · intro vs rest hf
        cases vs with
        | nil => rfl
        | cons v vs =>
          obtain ⟨c, b, hcb, hws, hne, _⟩ := serVal_head v
          have hfv : fuelVal v ≤ m := by
            rw [fuelElems] at hf
            have := fuelElems_pos vs
            omega
          cases vs with
          | nil =>
            show parseElems (m + 1) ((serVal v ++ [']']) ++ rest) = _
            rw [hcb]
            simp only [List.append_assoc, List.cons_append, List.singleton_append,
              List.nil_append]
            simp only [parseElems]
            rw [if_neg hne]
            have h1 := ihm.1 v (']' :: rest) hfv rfl
            rw [hcb] at h1
            simp only [List.cons_append] at h1
            rw [h1]
            rfl
          | cons v2 vs2 =>
            show parseElems (m + 1)
                ((serVal v ++ ',' :: serElems (v2 :: vs2)) ++ rest) = _
            rw [hcb]
            simp only [List.append_assoc, List.cons_append, List.singleton_append,
              List.nil_append]
            simp only [parseElems]
            rw [if_neg hne]
            have h1 := ihm.1 v (',' :: (serElems (v2 :: vs2) ++ rest)) hfv rfl
            rw [hcb] at h1
            simp only [List.cons_append] at h1
            rw [h1]
            show (parseElems m (skipWs (serElems (v2 :: vs2) ++ rest))).bind
                (fun q => match q.1 with
                  | Json.arr vs => some (Json.arr (v :: vs), q.2)
                  | _ => none) = _
            rw [skipWs_head (serElems_head (v2 :: vs2))]
            have h2 : fuelElems (v2 :: vs2) ≤ m := by
              rw [fuelElems] at hf
              have := fuelVal_pos v
              omega
            rw [ihm.2.1 (v2 :: vs2) rest h2]
            rfl
      · intro fs rest hf
        cases fs with
        | nil => rfl
        | cons f fs =>
          obtain ⟨k, v⟩ := f
          have hfv : fuelVal v ≤ m := by
            rw [fuelFields] at hf
            have := fuelFields_pos fs
            omega
          obtain ⟨c, b, hcb, hws, _, hne2⟩ := serVal_head v
          cases fs with
          | nil =>
            show parseFields (m + 1)
                (((('"' :: (escList k.data ++ ['"'])) ++ ':' :: serVal v ++ ['}'])) ++ rest) = _
            simp only [List.append_assoc, List.cons_append, List.singleton_append,
              List.nil_append]
            simp only [parseFields]
            rw [if_pos trivial]
            rw [parseStrBody_ser]
            show (parseVal m (skipWs (serVal v ++ ('}' :: rest)))).bind
                (fun q => match skipWs q.2 with
                  | [] => none
                  | c3 :: r4 =>
                    if c3 = ',' then
                      (parseFields m (skipWs r4)).bind
                        (fun w => match w.1 with
                          | Json.obj fs => some (Json.obj ((⟨k.data⟩, q.1) :: fs), w.2)
                          | _ => none)
                    else if c3 = '}' then some (.obj [(⟨k.data⟩, q.1)], r4)
                    else none) = _
            rw [skipWs_head (serVal_head_ws v)]
            rw [ihm.1 v ('}' :: rest) hfv rfl]
            show some (Json.obj [(⟨k.data⟩, v)], rest) = _
            rw [string_mk_data]
          | cons f2 fs2 =>
            show parseFields (m + 1)
                (((('"' :: (escList k.data ++ ['"'])) ++ ':' :: serVal v ++
                  ',' :: serFields (f2 :: fs2))) ++ rest) = _
            simp only [List.append_assoc, List.cons_append, List.singleton_append,
              List.nil_append]
            simp only [parseFields]
            rw [if_pos trivial]
            rw [parseStrBody_ser]
            show (parseVal m (skipWs (serVal v ++ (',' :: (serFields (f2 :: fs2) ++ rest))))).bind
                (fun q => match skipWs q.2 with
                  | [] => none
                  | c3 :: r4 =>
                    if c3 = ',' then
                      (parseFields m (skipWs r4)).bind
                        (fun w => match w.1 with
                          | Json.obj fs => some (Json.obj ((⟨k.data⟩, q.1) :: fs), w.2)
                          | _ => none)
                    else if c3 = '}' then some (.obj [(⟨k.data⟩, q.1)], r4)
                    else none) = _
            rw [skipWs_head (serVal_head_ws v)]
            rw [ihm.1 v (',' :: (serFields (f2 :: fs2) ++ rest)) hfv rfl]
            show (parseFields m (skipWs (serFields (f2 :: fs2) ++ rest))).bind
                (fun w => match w.1 with
                  | Json.obj fs => some (Json.obj ((⟨k.data⟩, v) :: fs), w.2)
                  | _ => none) = _
            rw [skipWs_head (serFields_head (f2 :: fs2))]
            have h2 : fuelFields (f2 :: fs2) ≤ m := by
              rw [fuelFields] at hf
              have := fuelVal_pos v
              omega
            rw [ihm.2.2 (f2 :: fs2) rest h2]
            show some (Json.obj ((⟨k.data⟩, v) :: f2 :: fs2), rest) = _
            rw [string_mk_data]

theorem serVal_len_pos (j : Json) : 1 ≤ (serVal j).length := by
  obtain ⟨c, b, h, -, -, -⟩ := serVal_head j
  rw [h]
  simp

theorem serElems_len_pos (vs : List Json) : 1 ≤ (serElems vs).length := by
  obtain ⟨c, b, h, -⟩ := serElems_head vs
  rw [h]
  simp

theorem serFields_len_pos (fs : List (String × Json)) : 1 ≤ (serFields fs).length := by
  obtain ⟨c, b, h, -⟩ := serFields_head fs
  rw [h]
  simp

theorem serStr_len_ge (s : String) : 2 ≤ (serStr s).length := by
  simp [serStr]

/-- The fuel needed to re-parse a serialization is at most twice its length:
justifies the fuel budget `unmarshal` computes from the input alone. -/
theorem fuel_le_len (N : Nat) :
    (∀ j, fuelVal j ≤ N → fuelVal j ≤ 2 * (serVal j).length) ∧
    (∀ vs, fuelElems vs ≤ N → fuelElems vs ≤ 2 * (serElems vs).length) ∧
    (∀ fs, fuelFields fs ≤ N → fuelFields fs ≤ 2 * (serFields fs).length) := by
  induction N using Nat.strong_induction_on with
  | _ N ih =>
    refine ⟨?_, ?_, ?_⟩
    · intro j hj
      cases j with
      | null => simp [fuelVal, serVal]
      | bool b => cases b <;> simp [fuelVal, serVal]
      | num k =>
        have := serVal_len_pos (.num k)
        have hf : fuelVal (.num k) = 1 := rfl
        rw [hf]
        omega
      | str s =>
        have := serVal_len_pos (.str s)
        have hf : fuelVal (.str s) = 1 := rfl
        rw [hf]
        omega
      | arr xs =>
        rw [fuelVal] at hj ⊢
        have hlt : fuelElems xs < N := by
          have := fuelElems_pos xs
          omega
        have hb := (ih (fuelElems xs) hlt).2.1 xs (le_refl _)
        show 1 + fuelElems xs ≤ 2 * (('[' :: serElems xs).length)
        simp only [List.length_cons]
        have := serElems_len_pos xs
        omega
      | obj fs =>
        rw [fuelVal] at hj ⊢
        have hlt : fuelFields fs < N := by
          have := fuelFields_pos fs
          omega
        have hb := (ih (fuelFields fs) hlt).2.2 fs (le_refl _)
        show 1 + fuelFields fs ≤ 2 * (('{' :: serFields fs).length)
        simp only [List.length_cons]
        have := serFields_len_pos fs
        omega
    · intro vs hvs
      cases vs with
      | nil => simp [fuelElems, serElems]
      | cons v vs =>
        rw [fuelElems] at hvs ⊢
        have hv : fuelVal v < N := by
          have := fuelElems_pos vs
          have := fuelVal_pos v
          omega
        have hvs' : fuelElems vs < N := by
          have := fuelVal_pos v
          have := fuelElems_pos vs
          omega
        have hb1 := (ih (fuelVal v) hv).1 v (le_refl _)
        have hb2 := (ih (fuelElems vs) hvs').2.1 vs (le_refl _)
        cases vs with
        | nil =>
          show 1 + fuelVal v + fuelElems [] ≤ 2 * ((serVal v ++ [']']).length)
          simp only [List.length_append, List.length_cons, List.length_nil]
          simp only [fuelElems] at hb2 ⊢
          omega
        | cons v2 vs2 =>
          show 1 + fuelVal v + fuelElems (v2 :: vs2) ≤
            2 * ((serVal v ++ ',' :: serElems (v2 :: vs2)).length)
          simp only [List.length_append, List.length_cons]
          omega
    · intro fs hfs
      cases fs with
      | nil => simp [fuelFields, serFields]
      | cons f fs =>
        obtain ⟨k, v⟩ := f
        rw [fuelFields] at hfs ⊢
        have hv : fuelVal v < N := by
          have := fuelFields_pos fs
          have := fuelVal_pos v
          omega
        have hfs' : fuelFields fs < N := by
          have := fuelVal_pos v
          have := fuelFields_pos fs
          omega
        have hb1 := (ih (fuelVal v) hv).1 v (le_refl _)
        have hb2 := (ih (fuelFields fs) hfs').2.2 fs (le_refl _)
        have hk := serStr_len_ge k
        cases fs with
        | nil =>
          show 1 + fuelVal v + fuelFields [] ≤
            2 * ((serStr k ++ ':' :: serVal v ++ ['}']).length)
          simp only [List.length_append, List.length_cons, List.length_nil]
          simp only [fuelFields] at hb2 ⊢
          omega
        | cons f2 fs2 =>
          show 1 + fuelVal v + fuelFields (f2 :: fs2) ≤
            2 * ((serStr k ++ ':' :: serVal v ++ ',' :: serFields (f2 :: fs2)).length)
          simp only [List.length_append, List.length_cons]
          omega

/-- Round trip for one JSON value through the `unmarshal` entry point. -/
theorem unmarshal_serVal (j : Json) : unmarshal (serVal j) = some j := by
  unfold unmarshal
  have hfuel : fuelVal j ≤ fuelFor (serVal j) := by
    have h1 := (fuel_le_len (fuelVal j)).1 j (le_refl _)
    unfold fuelFor
    omega
  have h := (parse_ser (fuelFor (serVal j))).1 j [] hfuel rfl
  rw [List.append_nil] at h
  rw [h]
  rfl

/-- Round trip for a single `LogRecord` (claim C9, record form). -/
theorem unmarshalRecord_marshalRecord (r : LogRecord) :
    unmarshalRecord (marshalRecord r) = some r := by
  unfold unmarshalRecord marshalRecord
  rw [unmarshal_serVal]

theorem recordsOf_map_obj (l : List LogRecord) :
    recordsOf (l.map Json.obj) = some l := by
  induction l with
  | nil => rfl
  | cons r l ih => simp [recordsOf, toRecord, ih]

/-- Round trip for a sequence of `LogRecord`s (claim C9, list form). -/
theorem unmarshalList_marshalList (l : List LogRecord) :
    unmarshalList (marshalList l) = some l := by
  unfold unmarshalList marshalList
  rw [unmarshal_serVal]
  exact recordsOf_map_obj l

/-! ## File-system and logger state model

The log directory is an association list `filename ↦ entry`;  an entry
carries the file's byte content, its modification time (`os.FileInfo.ModTime`,
modelled as a `Nat` tick; the zero value is Go's zero `time.Time`), and a
flag injecting a read error for that file.  `IOFaults` injects failures of
the remaining file-system calls (`os.Stat`, `os.OpenFile`, `Truncate`,
`Write`).  `fs.Glob` with the pattern `<date>*` cannot fail (the pattern is
never malformed), so it is modelled as total. -/

/-- One physical file: content, modification time, injected read fault. -/
structure FileEntry where
  content : List Char
  mtime : Nat
  readErr : Bool

/-- The writer's log directory (`esw.folder` contents). -/
def Dir := List (String × FileEntry)

/-- Injected file-system faults for one flush. -/
structure IOFaults where
  statFail : Bool
  openFail : Bool
  truncFail : Bool
  writeFail : Bool

/-- No injected faults. -/
def noFaults : IOFaults := ⟨false, false, false, false⟩

/-- Errors surfaced by the write/flush path (plus the nil-`FileInfo`
dereference panic that `findLatestFile` can hit when every same-date file
has the zero modification time). -/
inductive LogErr where
  | decodeErr
  | ioStat
  | ioOpen
  | ioRead
  | ioWrite
  | panicNilInfo
  deriving DecidableEq

/-- Mutable state of one `logFileWriter`: the shared record stack, the
directory contents, the current date (`civil.DateOf(time.Now())`) and a
clock used to stamp modification times. -/
structure LoggerState where
  stack : List LogRecord
  dir : List (String × FileEntry)
  today : Nat
  clock : Nat

/-- `const MaxStackSize int = 5`. -/
def MaxStackSize : Nat := 5

/-- `var MaxFileSize int64 = 5096000` (package-level, never reassigned). -/
def MaxFileSize : Nat := 5096000

def lookupFile : List (String × FileEntry) → String → Option FileEntry
  | [], _ => none
  | (n, e) :: d, name => if n = name then some e else lookupFile d name

def setFile : List (String × FileEntry) → String → FileEntry →
    List (String × FileEntry)
  | [], name, e => [(name, e)]
  | (n, e0) :: d, name, e =>
    if n = name then (n, e) :: d else (n, e0) :: setFile d name e

/-- Byte-order prefix test (`*` in the glob pattern matches any suffix). -/
def isPre : List Char → List Char → Bool
  | [], _ => true
  | p :: ps, cs =>
    match cs with
    | [] => false
    | c :: cs2 => p = c && isPre ps cs2

/-- Byte-order comparison of names (UTF-8 byte order coincides with
code-point order). -/
def listLe : List Char → List Char → Bool
  | [], _ => true
  | a :: as, bs =>
    match bs with
    | [] => false
    | b :: bs2 => if a = b then listLe as bs2 else decide (a < b)

def insertSorted (s : String) : List String → List String
  | [] => [s]
  | t :: ts => if listLe s.data t.data then s :: t :: ts else t :: insertSorted s ts

def sortNames : List String → List String
  | [] => []
  | s :: ss => insertSorted s (sortNames ss)

/-- `fs.Glob(os.DirFS(folder), pat ++ "*")`: names matching the pattern,
in sorted order (as `fs.Glob` guarantees). -/
def glob (d : List (String × FileEntry)) (pat : String) : List String :=
  sortNames ((d.filter (fun p => isPre pat.data p.1.data)).map (fun p => p.1))

/-- Model of `civil.Date.String()`: an injective fixed-width decimal day
stamp, free of `_` (all the code relies on). -/
def dateStr (d : Nat) : String :=
  String.mk (List.replicate (8 - (natChars d).length) '0' ++ natChars d)

/-- `os.OpenFile(name, os.O_CREATE|os.O_RDWR, 0o644)`: creates an empty
file (stamped with the current clock) when absent. -/
def openFile (d : List (String × FileEntry)) (name : String) (clock : Nat) :
    List (String × FileEntry) :=
  match lookupFile d name with
  | some _ => d
  | none => setFile d name ⟨[], clock, false⟩

/-- The `for _, entry := range entries` scan of `findLatestFile`: keeps the
file whose `ModTime` is strictly the latest so far, starting from the
zero time and a nil `FileInfo`. -/
def scanLatest (d : List (String × FileEntry)) :
    List String → Option (String × FileEntry) → Option (String × FileEntry)
  | [], acc => acc
  | n :: ns, acc =>
    let acc' :=
      match lookupFile d n with
      | some e =>
        match acc with
        | none => if 0 < e.mtime then some (n, e) else none
        | some (bn, be) => if be.mtime < e.mtime then some (n, e) else some (bn, be)
      | none => acc
    scanLatest d ns acc'

/-- The log file name `<date>_<index>.log.json`. -/
def logName (today idx : Nat) : String :=
  dateStr today ++ "_" ++ String.mk (natChars idx) ++ ".log.json"

/-- `findLatestFile` (logWriter.go lines 90–127).  Globs today's files; if
any exist, picks the most-recently-modified one; if its size is
`≥ MaxFileSize`, opens a fresh file at index `len(entries)`.  In every
other case — including matches whose latest file is small — control falls
through to opening the index-`0` file for today. -/
def findLatestFile (st : LoggerState) (f : IOFaults) :
    Except LogErr (String × List (String × FileEntry)) :=
  let entries := glob st.dir (dateStr st.today)
  let openF : String → Except LogErr (String × List (String × FileEntry)) :=
    fun name =>
      if f.openFail then .error .ioOpen
      else .ok (name, openFile st.dir name st.clock)
  if 0 < entries.length then
    if f.statFail then .error .ioStat
    else
      match scanLatest st.dir entries none with
      | none => .error .panicNilInfo
      | some (_, e) =>
        if MaxFileSize ≤ e.content.length then
          openF (logName st.today entries.length)
        else
          openF (logName st.today 0)
  else openF (logName st.today 0)

/-- `flush` (logWriter.go lines 55–88): read the selected file whole,
decode it (an empty file stands for no prior records), append the stack,
re-marshal, `Truncate(0)` — whose error the code discards — then
`Seek(0,0)` and `Write`.  Only after a successful write is the stack reset
to length zero.  A failed `Truncate` leaves the old bytes in place, so the
rewrite only overwrites the first `len(bytes)` of them; `Write` is
modelled all-or-nothing. -/
def flush (st : LoggerState) (f : IOFaults) :
    Except LogErr Unit × LoggerState :=
  match findLatestFile st f with
  | .error e => (.error e, st)
  | .ok (name, dir1) =>
    let st1 := { st with dir := dir1 }
    match lookupFile dir1 name with
    | none => (.error .ioRead, st1)
    | some fe =>
      if fe.readErr then (.error .ioRead, st1)
      else
        let content := fe.content
        match if 0 < content.length then unmarshalList content else some [] with
        | none => (.error .decodeErr, st1)
        | some prevLogs =>
          let bytes := marshalList (prevLogs ++ st.stack)
          let c0 := if f.truncFail then content else []
          if f.writeFail then
            (.error .ioWrite,
              { st1 with dir := setFile dir1 name { fe with content := c0 } })
          else
            let fe' : FileEntry := ⟨bytes ++ c0.drop bytes.length, st.clock, fe.readErr⟩
            (.ok (),
              { st1 with
                stack := ([] : List LogRecord),
                dir := setFile dir1 name fe',
                clock := st.clock + 1 })

/-- `logFileWriter.Write` (logWriter.go lines 35–52): decode one record,
push it, and flush once the stack length reaches `MaxStackSize`.  The
third component reports whether the flush was invoked (instrumentation
for the threshold claims; it does not influence the result). -/
def Write (b : List Char) (st : LoggerState) (f : IOFaults) :
    Except LogErr Nat × LoggerState × Bool :=
  match unmarshalRecord b with
  | none => (.error .decodeErr, st, false)
  | some record =>
    let st1 := { st with stack := st.stack ++ [record] }
    if MaxStackSize ≤ st1.stack.length then
      match flush st1 f with
      | (.error e, st2) => (.error e, st2, true)
      | (.ok _, st2) => (.ok st2.stack.length, st2, true)
    else (.ok st1.stack.length, st1, false)

/-- Run a sequence of `Write` calls, counting invoked flushes. -/
def writeSeq : List (List Char) → LoggerState → IOFaults → LoggerState × Nat
  | [], st, _ => (st, 0)
  | b :: bs, st, f =>
    let r := Write b st f
    let rest := writeSeq bs r.2.1 f
    (rest.1, (if r.2.2 then 1 else 0) + rest.2)

/-! ## Report reader (`logReporter`) -/

/-- `type LogReport map[civil.Date]map[string][]LogRecord`, determinized as
an association list in insertion order (Go maps are unordered). -/
def LogReport := List (Nat × List (String × List LogRecord))

def wpLookup : List (String × List LogRecord) → String → Option (List LogRecord)
  | [], _ => none
  | (w, l) :: m, wp => if w = wp then some l else wpLookup m wp

def lrLookup : List (Nat × List (String × List LogRecord)) → Nat →
    Option (List (String × List LogRecord))
  | [], _ => none
  | (d0, m) :: lr, d => if d0 = d then some m else lrLookup lr d

/-- `lr[date][wp]` as Go evaluates it (a missing date gives the nil map,
whose lookup misses). -/
def lookup2 (lr : LogReport) (d : Nat) (wp : String) : Option (List LogRecord) :=
  match lrLookup lr d with
  | none => none
  | some m => wpLookup m wp

/-- `lr[date][wp] = append(lr[date][wp], recs...)` with
`lr[date]` created first when absent (as the Go loop does). -/
def wpAppend (m : List (String × List LogRecord)) (wp : String)
    (recs : List LogRecord) : List (String × List LogRecord) :=
  match m with
  | [] => [(wp, recs)]
  | (w, l) :: m' =>
    if w = wp then (w, l ++ recs) :: m' else (w, l) :: wpAppend m' wp recs

def lrAppend (lr : LogReport) (d : Nat) (wp : String)
    (recs : List LogRecord) : LogReport :=
  match lr with
  | [] => [(d, wpAppend [] wp recs)]
  | (d0, m) :: lr' =>
    if d0 = d then (d0, wpAppend m wp recs) :: lr'
    else (d0, m) :: lrAppend lr' d wp recs

/-- `filterLogs` (reporter lines 31–43): for each day offset `0..days`,
glob the files whose name starts with that day's date stamp.  The `sev`
parameter is accepted and never used, as in the source. -/
def filterLogs (d : List (String × FileEntry)) (today days : Nat)
    (sev : String) : List String :=
  (List.range (days + 1)).flatMap (fun k => glob d (dateStr (today - k)))

/-- `strings.Split(log, "_")[0]`. -/
def upToUnderscore : List Char → List Char
  | [] => []
  | c :: cs => if c = '_' then [] else c :: upToUnderscore cs

/-- Model of `time.Parse(time.DateOnly, s)` on the model's date strings:
succeeds exactly on non-empty all-digit strings. -/
def dateParse (s : String) : Option Nat :=
  if s.data ≠ [] ∧ s.data.all isDig then some (digsVal s.data) else none

/-- The per-file loop of `getLogs` (reporter lines 50–70): read, decode,
parse the date out of the file name; any failure skips the file silently. -/
def scanFiles (d : List (String × FileEntry)) (wp : String) :
    List String → LogReport → LogReport
  | [], lr => lr
  | log :: rest, lr =>
    let lr' :=
      match lookupFile d log with
      | none => lr
      | some fe =>
        if fe.readErr then lr
        else
          match unmarshalList fe.content with
          | none => lr
          | some tmp =>
            match dateParse (String.mk (upToUnderscore log.data)) with
            | none => lr
            | some cDate => lrAppend lr cDate wp tmp
    scanFiles d wp rest lr'

/-- `getLogs` (reporter lines 46–77): scan the globbed files into a
report, then — only when the buffer is non-empty and the report already
has an entry for today's date and the source — append the buffered
records to that entry. -/
def getLogs (st : LoggerState) (days : Nat) (wp sev : String) : LogReport :=
  let lr := scanFiles st.dir wp (filterLogs st.dir st.today days sev) []
  if 0 < st.stack.length then
    if (lookup2 lr st.today wp).isSome then lrAppend lr st.today wp st.stack
    else lr
  else lr

/-! ## Logger construction (`LogConfiguration`, `NewDCSlogger`) -/

/-- The `LogConfiguration` interface, as a record of its three methods. -/
structure LogConfiguration where
  minLevel : Int
  dir : String
  maxFileSize : Nat

/-- `filepath.Join`. -/
def joinPath (a b : String) : String := a ++ "/" ++ b

/-- The state `newLogFileWriter(logDir, recordStack)` retains: only the
directory path (the stack pointer is carried by `LoggerState`). -/
structure logFileWriter where
  folder : String

def newLogFileWriter (logDir : String) : logFileWriter := ⟨logDir⟩

/-- The file-writer component `NewDCSlogger(name, lc, ...)` constructs:
`newLogFileWriter(filepath.Join(lc.Dir(), name), rc)`.  Nothing else of
`lc` reaches the writer; in particular `lc.MaxFileSize()` is never
called anywhere in the logging package. -/
def dcsWriterOf (name : String) (lc : LogConfiguration) : logFileWriter :=
  newLogFileWriter (joinPath lc.dir name)

/-- The reporter component `NewDCSlogger` constructs:
`newLogReporter(name, lc, rc)` with `folder = filepath.Join(lc.Dir(), name)`. -/
def dcsReporterOf (name : String) (lc : LogConfiguration) : logFileWriter :=
  newLogFileWriter (joinPath lc.dir name)


/-! ## Behaviour of `flush` on the record stack -/

/-- The stack is reset exactly on the success path of `flush`; every error
return leaves it untouched. -/
theorem flush_stack (st : LoggerState) (f : IOFaults) :
    ((flush st f).2).stack =
      (match (flush st f).1 with
        | .ok _ => ([] : List LogRecord)
        | .error _ => st.stack) := by
  unfold flush
  cases hfind : findLatestFile st f with
  | error e => simp
  | ok p =>
    obtain ⟨name, dir1⟩ := p
    cases hlk : lookupFile dir1 name with
    | none => simp [hlk]
    | some fe =>
      cases hre : fe.readErr with
      | true => simp [hlk, hre]
      | false =>
        cases hdec : (if 0 < fe.content.length then unmarshalList fe.content
            else some []) with
        | none => simp [hlk, hre, hdec]
        | some prev =>
          cases hwf : f.writeFail with
          | true => simp [hlk, hre, hdec, hwf]
          | false => simp [hlk, hre, hdec, hwf]

/-! ## Claim theorems -/

/-- C4: `flush` empties the Record Buffer (sets its length to zero) iff it
returns success; on any error return the buffer's contents are unchanged,
so no record is flushed twice and a failed flush is retryable. -/
theorem c4_flush_clears_iff_success (st : LoggerState) (f : IOFaults) :
    ((flush st f).1 = .ok () → ((flush st f).2).stack = []) ∧
    (∀ e, (flush st f).1 = .error e → ((flush st f).2).stack = st.stack) := by
  constructor
  · intro h
    rw [flush_stack, h]
  · intro e h
    rw [flush_stack, h]

/-- Witness for C4 at a concrete state: a flush into an empty directory
succeeds and leaves the buffer empty. -/
def stW4 : LoggerState := ⟨[[("a", Json.num 1)]], [], 3, 1⟩

theorem c4_witness :
    (flush stW4 noFaults).1 = .ok () ∧ ((flush stW4 noFaults).2).stack = [] :=
  ⟨rfl, (c4_flush_clears_iff_success stW4 noFaults).1 rfl⟩

/-- C6: the `sev` argument of `getLogs` has no effect on the result
(records of all severities are returned regardless of the filter). -/
theorem c6_severity_filter_noop (st : LoggerState) (days : Nat)
    (wp s1 s2 : String) : getLogs st days wp s1 = getLogs st days wp s2 := rfl

/-- C9: encoding a `LogRecord` (or a sequence of them) to JSON and decoding
it back yields the record(s) field for field. -/
theorem c9_encode_decode_roundtrip :
    (∀ r : LogRecord, unmarshalRecord (marshalRecord r) = some r) ∧
    (∀ l : List LogRecord, unmarshalList (marshalList l) = some l) :=
  ⟨unmarshalRecord_marshalRecord, unmarshalList_marshalList⟩

/-- C10: the thresholds actually used are the package-level constants
(`MaxStackSize = 5`, `MaxFileSize = 5096000`); the configuration's
`MaxFileSize()` is never consulted, so two loggers whose configurations
differ only in the maximum file size build identical writers — and the
write/flush/rotation pipeline is a function of the writer state alone, so
they rotate identically. -/
theorem c10_config_maxFileSize_unused :
    MaxStackSize = 5 ∧ MaxFileSize = 5096000 ∧
    ∀ (name : String) (lc1 lc2 : LogConfiguration),
      lc1.dir = lc2.dir → lc1.maxFileSize ≠ lc2.maxFileSize →
      dcsWriterOf name lc1 = dcsWriterOf name lc2 := by
  refine ⟨rfl, rfl, ?_⟩
  intro name lc1 lc2 hdir _
  unfold dcsWriterOf newLogFileWriter joinPath
  rw [hdir]

/-- C2: a successful `Write` always leaves the buffer strictly below
`MaxStackSize`; and (from any state already satisfying the invariant) the
flush is invoked exactly when appending the decoded record makes the
buffer length reach `MaxStackSize` — never at a smaller length.  Closure
of the invariant under every step covers all call sequences from the
initial empty buffer. -/
theorem c2_write_buffer_invariant (b : List Char) (st : LoggerState) (f : IOFaults) :
    (∀ n st' fl, Write b st f = (.ok n, st', fl) →
        st'.stack.length < MaxStackSize) ∧
    (st.stack.length < MaxStackSize →
      ((Write b st f).2.2 = true ↔
        (unmarshalRecord b).isSome ∧ st.stack.length + 1 = MaxStackSize)) := by
  unfold Write
  cases hum : unmarshalRecord b with
  | none =>
    constructor
    · intro n st' fl h
      simp at h
    · intro _
      simp
  | some record =>
    dsimp only
    have hlen : (st.stack ++ [record]).length = st.stack.length + 1 := by simp
    by_cases hth : MaxStackSize ≤ st.stack.length + 1
    · rw [if_pos (by rw [hlen]; exact hth)]
      cases hp : flush { st with stack := st.stack ++ [record] } f with
      | mk res st2 =>
        have hstack := flush_stack { st with stack := st.stack ++ [record] } f
        rw [hp] at hstack
        cases res with
        | error e =>
          dsimp only
          constructor
          · intro n st' fl h
            simp at h
          · intro hinv
            constructor
            · intro _
              exact ⟨by simp, by omega⟩
            · intro _
              rfl
        | ok u =>
          dsimp only
          dsimp only at hstack
          constructor
          · intro n st' fl h
            have h2 := congrArg (fun p => p.2.1) h
            dsimp only at h2
            subst h2
            rw [hstack]
            decide
          · intro hinv
            constructor
            · intro _
              exact ⟨by simp, by omega⟩
            · intro _
              rfl
    · rw [if_neg (by rw [hlen]; omega)]
      constructor
      · intro n st' fl h
        have h2 := congrArg (fun p => p.2.1) h
        dsimp only at h2
        subst h2
        dsimp only
        rw [hlen]
        omega
      · intro hinv
        dsimp only
        constructor
        · intro hfalse
          cases hfalse
        · intro hc
          omega

/-- C5 counterexample input: one decodable file for today, one buffered
record, and a fault on the `Truncate` call only. -/
def rT1 : LogRecord := [("a", Json.num 1)]

def rT2 : LogRecord := [("b", Json.num 2)]

def stT5 : LoggerState :=
  ⟨[rT2], [(logName 3 0, ⟨marshalList [rT1], 1, false⟩)], 3, 2⟩

def fTr : IOFaults := ⟨false, false, true, false⟩

/-- C5 counterexample: the `Truncate(0)` step fails, yet `flush` returns
success (its error is discarded by the code) and clears the buffer —
contradicting the claim that a truncate failure yields an `IOError` and
leaves the buffer un-cleared. -/
theorem c5_counterexample :
    fTr.truncFail = true ∧ (flush stT5 fTr).1 = .ok () ∧
      ((flush stT5 fTr).2).stack = [] :=
  ⟨rfl, rfl, rfl⟩

/-- C5 (amended): a decode failure on the existing content fails the whole
flush with no partial merge (state mutated only by the selector), and a
failure of the `Write` call yields an `IOError` and leaves the buffer
un-cleared; `Truncate` failures are discarded. -/
theorem c5_amended_error_paths (st : LoggerState) (f : IOFaults) :
    (∀ name dir1 fe, findLatestFile st f = .ok (name, dir1) →
      lookupFile dir1 name = some fe → fe.readErr = false →
      0 < fe.content.length → unmarshalList fe.content = none →
      flush st f = (.error .decodeErr, { st with dir := dir1 })) ∧
    (∀ name dir1 fe prev, findLatestFile st f = .ok (name, dir1) →
      lookupFile dir1 name = some fe → fe.readErr = false →
      (if 0 < fe.content.length then unmarshalList fe.content else some []) =
        some prev →
      f.writeFail = true →
      (flush st f).1 = .error .ioWrite ∧
        ((flush st f).2).stack = st.stack) := by
  constructor
  · intro name dir1 fe hfind hlk hre hlen hdec
    unfold flush
    rw [hfind]
    dsimp only
    rw [hlk]
    dsimp only
    rw [hre]
    simp only [Bool.false_eq_true, if_false]
    rw [if_pos hlen, hdec]
  · intro name dir1 fe prev hfind hlk hre hdec hwf
    unfold flush
    rw [hfind]
    dsimp only
    rw [hlk]
    dsimp only
    rw [hre]
    simp only [Bool.false_eq_true, if_false]
    rw [hdec]
    dsimp only
    rw [hwf]
    simp

theorem wpLookup_wpAppend (m : List (String × List LogRecord)) (wp : String)
    (recs l : List LogRecord) (h : wpLookup m wp = some l) :
    wpLookup (wpAppend m wp recs) wp = some (l ++ recs) := by
  induction m with
  | nil => simp [wpLookup] at h
  | cons p m ih =>
    obtain ⟨w, lw⟩ := p
    by_cases hw : w = wp
    · subst hw
      rw [wpLookup, if_pos rfl] at h
      cases h
      rw [wpAppend, if_pos rfl, wpLookup, if_pos rfl]
    · rw [wpLookup, if_neg hw] at h
      rw [wpAppend, if_neg hw, wpLookup, if_neg hw]
      exact ih h

theorem lrLookup_lrAppend (lr : LogReport) (d : Nat) (wp : String)
    (recs : List LogRecord) (m : List (String × List LogRecord))
    (h : lrLookup lr d = some m) :
    lrLookup (lrAppend lr d wp recs) d = some (wpAppend m wp recs) := by
  induction lr with
  | nil => simp [lrLookup] at h
  | cons p lr ih =>
    obtain ⟨d0, m0⟩ := p
    by_cases hd : d0 = d
    · subst hd
      rw [lrLookup, if_pos rfl] at h
      cases h
      rw [lrAppend, if_pos rfl, lrLookup, if_pos rfl]
    · rw [lrLookup, if_neg hd] at h
      rw [lrAppend, if_neg hd, lrLookup, if_neg hd]
      exact ih h

theorem lookup2_lrAppend (lr : LogReport) (d : Nat) (wp : String)
    (recs l : List LogRecord) (h : lookup2 lr d wp = some l) :
    lookup2 (lrAppend lr d wp recs) d wp = some (l ++ recs) := by
  unfold lookup2 at h ⊢
  cases hm : lrLookup lr d with
  | none => rw [hm] at h; cases h
  | some m =>
    rw [hm] at h
    rw [lrLookup_lrAppend lr d wp recs m hm]
    exact wpLookup_wpAppend m wp recs l h

/-- C7: with a non-empty buffer, `getLogs` appends the buffered records to
the entry for today's date and the source name exactly when the on-disk
scan already produced that entry; with no such entry the buffered records
are absent from the returned report. -/
theorem c7_buffer_merge_asymmetry (st : LoggerState) (days : Nat)
    (wp sev : String) (h : 0 < st.stack.length) :
    (∀ l, lookup2 (scanFiles st.dir wp (filterLogs st.dir st.today days sev) [])
        st.today wp = some l →
      lookup2 (getLogs st days wp sev) st.today wp = some (l ++ st.stack)) ∧
    (lookup2 (scanFiles st.dir wp (filterLogs st.dir st.today days sev) [])
        st.today wp = none →
      getLogs st days wp sev =
        scanFiles st.dir wp (filterLogs st.dir st.today days sev) []) := by
  unfold getLogs
  rw [if_pos h]
  constructor
  · intro l hl
    rw [if_pos (by rw [hl]; rfl)]
    exact lookup2_lrAppend _ _ _ _ _ hl
  · intro hn
    rw [if_neg (by rw [hn]; simp)]

/-- Witness for C7: today's file already contributes an entry, so the one
buffered record is appended to it. -/
def stW7 : LoggerState :=
  ⟨[rT2], [(logName 3 0, ⟨marshalList [rT1], 1, false⟩)], 3, 2⟩

theorem lookupFile_setFile (d : List (String × FileEntry)) (n : String)
    (e : FileEntry) : lookupFile (setFile d n e) n = some e := by
  induction d with
  | nil => simp [setFile, lookupFile]
  | cons p d ih =>
    obtain ⟨n0, e0⟩ := p
    by_cases hn : n0 = n
    · subst hn
      rw [setFile, if_pos rfl, lookupFile, if_pos rfl]
    · rw [setFile, if_neg hn, lookupFile, if_neg hn]
      exact ih

/-- C1 failing input: today already has files `_0` (older) and `_1`
(most recently modified, size below `MaxFileSize`), plus one buffered
record to flush. -/
def rC1a : LogRecord := [("a", Json.num 1)]

def rC1b : LogRecord := [("b", Json.num 2)]

def rC1c : LogRecord := [("c", Json.num 3)]

def dirC1 : List (String × FileEntry) :=
  [(logName 7 0, ⟨marshalList [rC1a], 1, false⟩),
   (logName 7 1, ⟨marshalList [rC1b], 2, false⟩)]

def stC1 : LoggerState := ⟨[rC1c], dirC1, 7, 3⟩

/-- C1 (code behaviour at the failing input): the most-recently-modified
file for today is the index-1 file and its size is below `MaxFileSize`,
yet `findLatestFile` opens the index-0 file — the `if` fall-through in
lines 97–126 of logWriter.go returns index 0 instead of the candidate —
so the subsequent flush appends to the index-0 file and leaves the
highest-index file untouched. -/
theorem c1_selector_abandons_latest_file :
    scanLatest stC1.dir (glob stC1.dir (dateStr stC1.today)) none =
      some (logName 7 1, ⟨marshalList [rC1b], 2, false⟩) ∧
    (marshalList [rC1b]).length < MaxFileSize ∧
    findLatestFile stC1 noFaults = .ok (logName 7 0, stC1.dir) ∧
    lookupFile ((flush stC1 noFaults).2).dir (logName 7 0) =
      some ⟨marshalList [rC1a, rC1c], 3, false⟩ ∧
    lookupFile ((flush stC1 noFaults).2).dir (logName 7 1) =
      some ⟨marshalList [rC1b], 2, false⟩ ∧
    logName 7 0 ≠ logName 7 1 :=
  ⟨rfl, by decide, rfl, rfl, rfl, by decide⟩

/-- C3: whenever the rewrite's `Truncate` succeeds, a successful flush
leaves the selected file holding exactly the re-encoding of the prior
decoded records followed by the buffered records, with no trailing bytes;
decoding the file again yields exactly that concatenation. -/
theorem c3_flush_content_preserving (st : LoggerState) (f : IOFaults)
    (htr : f.truncFail = false) (name : String)
    (dir1 : List (String × FileEntry))
    (hfind : findLatestFile st f = .ok (name, dir1)) (fe : FileEntry)
    (hlk : lookupFile dir1 name = some fe) (hre : fe.readErr = false)
    (prev : List LogRecord)
    (hdec : (if 0 < fe.content.length then unmarshalList fe.content
      else some []) = some prev)
    (hok : (flush st f).1 = .ok ()) :
    lookupFile ((flush st f).2).dir name =
      some ⟨marshalList (prev ++ st.stack), st.clock, fe.readErr⟩ ∧
    unmarshalList (marshalList (prev ++ st.stack)) = some (prev ++ st.stack) := by
  refine ⟨?_, unmarshalList_marshalList (prev ++ st.stack)⟩
  unfold flush at hok ⊢
  rw [hfind] at hok ⊢
  dsimp only at hok ⊢
  rw [hlk] at hok ⊢
  dsimp only at hok ⊢
  rw [hre] at hok ⊢
  simp only [Bool.false_eq_true, if_false] at hok ⊢
  rw [hdec] at hok ⊢
  dsimp only at hok ⊢
  cases hwf : f.writeFail with
  | true =>
    rw [hwf] at hok
    simp at hok
  | false =>
    simp only [Bool.false_eq_true, if_false, htr]
    rw [lookupFile_setFile]
    simp

/-- Witness for C3 at a concrete state: a flush over one prior record and
one buffered record rewrites the file to the two-record encoding. -/
theorem c3_witness :
    (flush stW7 noFaults).1 = .ok () ∧
    lookupFile ((flush stW7 noFaults).2).dir (logName 3 0) =
      some ⟨marshalList ([rT1] ++ [rT2]), stW7.clock,
        (⟨marshalList [rT1], 1, false⟩ : FileEntry).readErr⟩ ∧
    unmarshalList (marshalList ([rT1] ++ [rT2])) = some ([rT1] ++ [rT2]) := by
  refine ⟨rfl, ?_⟩
  have h := c3_flush_content_preserving stW7 noFaults rfl (logName 3 0)
    stW7.dir rfl ⟨marshalList [rT1], 1, false⟩ rfl rfl [rT1]
    (by rw [if_pos (by decide)]; exact unmarshalList_marshalList [rT1]) rfl
  exact h

theorem c7_witness :
    0 < stW7.stack.length ∧
    lookup2 (getLogs stW7 0 "wp" "") stW7.today "wp" = some ([rT1] ++ [rT2]) :=
  ⟨by decide,
    (c7_buffer_merge_asymmetry stW7 0 "wp" "" (by decide)).1 [rT1] rfl⟩

/-- C8 inputs: six records with pairwise-distinct messages, an empty
buffer, an empty log directory, no injected faults. -/
def rec8 (i : Nat) : LogRecord :=
  [("msg", Json.str (String.mk ('m' :: natChars i)))]

def inputs8 : List (List Char) :=
  (List.range 6).map (fun i => marshalRecord (rec8 (i + 1)))

def st8 : LoggerState := ⟨[], [], 7, 1⟩

/-- C8: with `maxStackSize = 5` and `maxFileSize = 5096000`, writing six
distinct records causes exactly one flush, triggered by the fifth write;
afterwards today's index-0 file holds the first five records, the buffer
holds only the sixth, and `getLogs 0 ""` returns all six under today's
date and the source name. -/
theorem c8_concrete_scenario :
    MaxStackSize = 5 ∧ MaxFileSize = 5096000 ∧
    inputs8.Nodup ∧
    (writeSeq (inputs8.take 4) st8 noFaults).2 = 0 ∧
    (writeSeq (inputs8.take 5) st8 noFaults).2 = 1 ∧
    (writeSeq inputs8 st8 noFaults).2 = 1 ∧
    ((writeSeq inputs8 st8 noFaults).1).stack = [rec8 6] ∧
    lookupFile ((writeSeq inputs8 st8 noFaults).1).dir (logName 7 0) =
      some ⟨marshalList [rec8 1, rec8 2, rec8 3, rec8 4, rec8 5], 1, false⟩ ∧
    getLogs (writeSeq inputs8 st8 noFaults).1 0 "wp" "" =
      [(7, [("wp", [rec8 1, rec8 2, rec8 3, rec8 4, rec8 5, rec8 6])])] :=
  ⟨rfl, rfl, by decide, rfl, rfl, rfl, rfl, rfl, rfl⟩

/-- Witness for the amended C5: a corrupt file makes the flush fail with a
decode error and an injected write fault makes it fail with an `IOError`;
the buffer is untouched in both runs. -/
def stC5d : LoggerState :=
  ⟨[rT2], [(logName 3 0, ⟨['x', 'y'], 1, false⟩)], 3, 2⟩

def fWr : IOFaults := ⟨false, false, false, true⟩

theorem c5_witness :
    flush stC5d noFaults = (.error .decodeErr, { stC5d with dir := stC5d.dir }) ∧
    (flush stT5 fWr).1 = .error .ioWrite ∧
      ((flush stT5 fWr).2).stack = stT5.stack :=
  ⟨(c5_amended_error_paths stC5d noFaults).1 (logName 3 0) stC5d.dir
      ⟨['x', 'y'], 1, false⟩ rfl rfl rfl (by decide) rfl,
    (c5_amended_error_paths stT5 fWr).2 (logName 3 0) stT5.dir
      ⟨marshalList [rT1], 1, false⟩ [rT1] rfl rfl rfl
      (by rw [if_pos (by decide)]; exact unmarshalList_marshalList [rT1]) rfl⟩

/-- Witness for C2: from a buffer of four records, a fifth `Write` flushes
(it reaches the threshold) and succeeds with an empty buffer. -/
def recW2 : LogRecord := [("m", Json.num 0)]

def stW2 : LoggerState := ⟨[recW2, recW2, recW2, recW2], [], 3, 1⟩

theorem c2_witness :
    stW2.stack.length < MaxStackSize ∧
    ((Write (marshalRecord recW2) stW2 noFaults).2.2 = true ↔
      (unmarshalRecord (marshalRecord recW2)).isSome ∧
        stW2.stack.length + 1 = MaxStackSize) :=
  ⟨by decide,
    (c2_write_buffer_invariant (marshalRecord recW2) stW2 noFaults).2 (by decide)⟩

theorem c10_witness :
    (⟨0, "logs", 5⟩ : LogConfiguration).dir = (⟨0, "logs", 999⟩ : LogConfiguration).dir ∧
    (⟨0, "logs", 5⟩ : LogConfiguration).maxFileSize ≠
      (⟨0, "logs", 999⟩ : LogConfiguration).maxFileSize ∧
    dcsWriterOf "src" ⟨0, "logs", 5⟩ = dcsWriterOf "src" ⟨0, "logs", 999⟩ :=
  ⟨rfl, by decide,
    c10_config_maxFileSize_unused.2.2 "src" ⟨0, "logs", 5⟩ ⟨0, "logs", 999⟩ rfl (by decide)⟩

end Boiler
